import Mathlib

/-!
Shallow embedding of the howveyoubin inventory simulator (reactor.py,
howveyoubin.py, history_recorder.py, adaptors.py).

Conventions of the embedding:
* Python floats (timestamps, service times) are modelled as ℚ; Python ints
  (stock quantities) as ℤ.
* Random draws (expovariate service times, random bin choices, shuffles,
  seeds) are passed as explicit parameters; seeds themselves are dropped
  since they only feed the draws.
* The per-bin ledger `stock` and lock history `locked_times` are stored
  newest-first: Python appends at the tail and reads index -1, here we cons
  at the head and read the head.  Python `assert` statements and runtime
  errors are modelled as `Option`/`Except` failures.
-/

namespace HYB

/-- One bin of the pool (reactor.py class Bin): lock intervals and stock
ledger (both newest-first) plus the configured mean service time. -/
structure Bin where
  locked_times : List (ℚ × ℚ)
  stock : List (ℚ × ℤ)
  service_time : ℚ
deriving Repr, DecidableEq

/-- Bin.__init__: one degenerate lock interval and one ledger entry. -/
def Bin.init (s : ℤ) (created_at : ℚ) (service_time : ℚ) : Bin :=
  { locked_times := [(created_at, created_at)]
    stock := [(created_at, s)]
    service_time := service_time }

/-- Bin.next_unlocked: max of the last lock interval's end and the timestamp. -/
def Bin.next_unlocked (b : Bin) (timestamp : ℚ) : ℚ :=
  max (b.locked_times.headD (0, 0)).2 timestamp

/-- Bin.remaining_stock: quantity field of the most recent ledger entry. -/
def Bin.remaining_stock (b : Bin) : ℤ :=
  (b.stock.headD (0, 0)).2

/-- Bin.reserve_stock: `svc` is the expovariate service-time draw.  Returns
((queue_time, service_time, quantity_reserved), updated bin). -/
def Bin.reserve_stock (b : Bin) (quantity : ℤ) (timestamp svc : ℚ) :
    (ℚ × ℚ × ℤ) × Bin :=
  let end_of_queue_time := b.next_unlocked timestamp
  let b1 : Bin :=
    { b with locked_times :=
        (end_of_queue_time, end_of_queue_time + svc) :: b.locked_times }
  let true_remaining := b1.remaining_stock
  let stock_left := max 0 (true_remaining - quantity)
  let b2 : Bin :=
    { b1 with stock := (end_of_queue_time + svc, stock_left) :: b1.stock }
  ((end_of_queue_time - timestamp, svc, true_remaining - stock_left), b2)

/-- Bin.add_stock: `svc` is the expovariate service-time draw. -/
def Bin.add_stock (b : Bin) (quantity : ℤ) (timestamp svc : ℚ) : Bin :=
  let end_of_queue_time := b.next_unlocked timestamp
  let b1 : Bin :=
    { b with locked_times :=
        (end_of_queue_time, end_of_queue_time + svc) :: b.locked_times }
  { b1 with stock :=
      (end_of_queue_time + svc, b1.remaining_stock + quantity) :: b1.stock }

/-- The extra lock interval Reactor.reshape_num_bins appends to each freshly
created bin (`bin_.locked_times.append((soonest_time, soonest_time + service_time))`). -/
def Bin.with_reshape_lock (b : Bin) (soonest svc : ℚ) : Bin :=
  { b with locked_times := (soonest, soonest + svc) :: b.locked_times }

/-- One term of Bin.utilization_percent's accumulation loop: the guarded,
clipped length contributed by a single lock interval (start, end). -/
def lockTerm (since upto : ℚ) (p : ℚ × ℚ) : ℚ :=
  if upto ≤ p.1 then 0
  else if p.2 < since then 0
  else min upto p.2 - max since p.1

/-- Start of the bin's oldest lock interval (`self.locked_times[0][0]`;
oldest = last of the newest-first stored list). -/
def Bin.first_lock_start (b : Bin) : ℚ :=
  (b.locked_times.getLastD (0, 0)).1

/-- Bin.utilization_percent.  Python reassigns
`since = max(since, locked_times[0][0])` before the loop and divides by
`to - since` with the reassigned value; `none` models the resulting
ZeroDivisionError when that difference is zero. -/
def Bin.utilization_percent (b : Bin) (since upto : ℚ) : Option ℚ :=
  if upto = since then some 1
  else if upto - max since b.first_lock_start = 0 then none
  else some ((b.locked_times.map
      (lockTerm (max since b.first_lock_start) upto)).sum /
    (upto - max since b.first_lock_start))

/-- Well-formedness invariant of a bin maintained by the simulation:
nonempty histories, lock intervals in reverse chronological order and
pairwise disjoint (each older end ≤ each newer start), every interval with
start ≤ end, and a nonnegative ledger. -/
def Bin.wf (b : Bin) : Prop :=
  b.locked_times ≠ [] ∧ b.stock ≠ [] ∧
  List.Chain' (fun x y => y.2 ≤ x.1) b.locked_times ∧
  (∀ p ∈ b.locked_times, p.1 ≤ p.2) ∧
  (∀ p ∈ b.stock, 0 ≤ p.2)

/-- Bin states reachable through the simulation's operations: fresh bins
(created with nonnegative stock by Reactor.__init__ / reshape_num_bins),
reservations, stock additions with nonnegative quantity, and the lock
interval appended by reshape.  Service-time draws are nonnegative since
`random.expovariate` is. -/
inductive BinReach : Bin → Prop where
  | init (s : ℤ) (created_at service_time : ℚ) (hs : 0 ≤ s) :
      BinReach (Bin.init s created_at service_time)
  | reserve (b : Bin) (q : ℤ) (t svc : ℚ) (hb : BinReach b) (hsvc : 0 ≤ svc) :
      BinReach (b.reserve_stock q t svc).2
  | add (b : Bin) (q : ℤ) (t svc : ℚ) (hb : BinReach b) (hq : 0 ≤ q)
      (hsvc : 0 ≤ svc) : BinReach (b.add_stock q t svc)
  | reshape (s : ℤ) (soonest service_time svc : ℚ) (hs : 0 ≤ s)
      (hsvc : 0 ≤ svc) :
      BinReach ((Bin.init s soonest service_time).with_reshape_lock soonest svc)

/-- A pending action of the simulation driver, reduced to what
insert_action_sorted inspects (its timestamp), plus a scheduling ordinal so
that placement among equal timestamps is observable. -/
structure Action where
  timestamp : ℚ
  ordinal : ℕ
deriving Repr, DecidableEq

/-- howveyoubin.insert_action_sorted: scan forward while the new action's
timestamp is strictly greater than the current element's, insert at the
first position where it is not. -/
def insert_action_sorted (action : Action) : List Action → List Action
  | [] => [action]
  | x :: rest =>
      if x.timestamp < action.timestamp then
        x :: insert_action_sorted action rest
      else action :: x :: rest

/-- Python's `math.ceil(a / b)` on integers, as used by Reactor.__init__,
add_stock and reshape_num_bins: floor division of the negation, negated
(proved below equal to ⌈a/b⌉ for positive b). -/
def ceil_div (a : ℤ) (b : ℕ) : ℤ := -((-a).fdiv b)

/-- The per-iteration assignment loop shared by Reactor.__init__ and
reshape_num_bins: iteration i assigns min(stock_per_bin, stock −
stock_assigned); returns the amounts in iteration order. -/
def assign_amounts (stock_per_bin stock : ℤ) : ℕ → ℤ → List ℤ
  | 0, _ => []
  | n + 1, assigned =>
      min stock_per_bin (stock - assigned) ::
        assign_amounts stock_per_bin stock n
          (assigned + min stock_per_bin (stock - assigned))

/-- The resource pool (reactor.py class Reactor). -/
structure Reactor where
  bins : List Bin
  service_time : ℚ
  last_time_used : ℚ
deriving Repr, DecidableEq

/-- Reactor.__init__: distribute the initial stock over `nbins` fresh bins
with the even-split/remainder rule. -/
def Reactor.init (stock : ℤ) (nbins : ℕ) (created_at service_time : ℚ) :
    Reactor :=
  { bins := (assign_amounts (ceil_div stock nbins) stock nbins 0).map
      (fun s => Bin.init s created_at service_time)
    service_time := service_time
    last_time_used := created_at }

def Reactor.num_bins (r : Reactor) : ℕ := r.bins.length

def Reactor.stock_available (r : Reactor) : ℤ :=
  (r.bins.map Bin.remaining_stock).sum

/-- Reactor.reserve_stock.  `bid` is the serviced bin id (the random draw
when the Python caller passes None), `svc` the bin's expovariate draw.
`none` models the watermark assertion failure. -/
def Reactor.reserve_stock (r : Reactor) (quantity : ℤ) (timestamp : ℚ)
    (bid : ℕ) (svc : ℚ) : Option ((ℚ × ℚ × ℕ × ℤ) × Reactor) :=
  if r.last_time_used ≤ timestamp then
    some ((((r.bins.getD bid (Bin.init 0 0 0)).reserve_stock quantity
          timestamp svc).1.1,
        ((r.bins.getD bid (Bin.init 0 0 0)).reserve_stock quantity
          timestamp svc).1.2.1,
        bid,
        ((r.bins.getD bid (Bin.init 0 0 0)).reserve_stock quantity
          timestamp svc).1.2.2),
      { r with
        bins := r.bins.set bid ((r.bins.getD bid (Bin.init 0 0 0)).reserve_stock
          quantity timestamp svc).2
        last_time_used := timestamp })
  else none

/-- The in-order loop body of Reactor.add_stock over the (already shuffled)
target bin ids; `svcs i` is the expovariate draw of the i-th iteration;
`assigned` the running `stock_assigned`. -/
def add_stock_loop (c q : ℤ) (timestamp : ℚ) (svcs : ℕ → ℚ) :
    List ℕ → ℕ → List Bin → ℤ → List Bin × ℤ
  | [], _, bins, assigned => (bins, assigned)
  | bid :: rest, i, bins, assigned =>
      add_stock_loop c q timestamp svcs rest (i + 1)
        (bins.set bid ((bins.getD bid (Bin.init 0 0 0)).add_stock
          (min c (q - assigned)) timestamp (svcs i)))
        (assigned + min c (q - assigned))

/-- Reactor.add_stock.  `ids` is the target id list already in shuffled
order (Python shuffles in place; pass a permutation of `range(len(bins))`
for the default).  The per-bin share divides by the TOTAL bin count.
Returns the sorted touched ids.  `none` models the watermark assertion
failure. -/
def Reactor.add_stock (r : Reactor) (quantity : ℤ) (timestamp : ℚ)
    (ids : List ℕ) (svcs : ℕ → ℚ) : Option (Reactor × List ℕ) :=
  if r.last_time_used ≤ timestamp then
    some ({ r with
        bins := (add_stock_loop (ceil_div quantity r.bins.length) quantity
          timestamp svcs ids 0 r.bins 0).1
        last_time_used := timestamp },
      List.insertionSort (fun a b => a ≤ b) ids)
  else none

/-- The `soonest_time` scan of reshape_num_bins: fold over the bins keeping
the largest `next_unlocked`, starting from the timestamp. -/
def reshape_soonest (bins : List Bin) (timestamp : ℚ) : ℚ :=
  bins.foldl
    (fun acc b =>
      if acc < b.next_unlocked timestamp then b.next_unlocked timestamp
      else acc)
    timestamp

/-- Reactor.reshape_num_bins.  `svc` is the single expovariate draw used to
lock every fresh bin.  Returns (updated pool, time_completed); `none`
models the watermark assertion failure. -/
def Reactor.reshape_num_bins (r : Reactor) (nbins : ℕ) (timestamp : ℚ)
    (svc : ℚ) : Option (Reactor × ℚ) :=
  if r.last_time_used ≤ timestamp then
    if r.bins.length = nbins then
      some ({ r with last_time_used := timestamp }, timestamp)
    else
      some ({ r with
          bins := (assign_amounts (ceil_div r.stock_available nbins)
              r.stock_available nbins 0).map
            (fun s => (Bin.init s (reshape_soonest r.bins timestamp)
                r.service_time).with_reshape_lock
              (reshape_soonest r.bins timestamp) svc)
          last_time_used := timestamp },
        reshape_soonest r.bins timestamp + svc)
  else none

/-- One timestamped Reactor operation together with its random draws. -/
inductive ROp where
  | reserve (q : ℤ) (t : ℚ) (bid : ℕ) (svc : ℚ)
  | add (q : ℤ) (t : ℚ) (ids : List ℕ) (svcs : ℕ → ℚ)
  | reshape (n : ℕ) (t : ℚ) (svc : ℚ)

def ROp.run (op : ROp) (r : Reactor) : Option Reactor :=
  match op with
  | reserve q t bid svc => (r.reserve_stock q t bid svc).map (fun p => p.2)
  | add q t ids svcs => (r.add_stock q t ids svcs).map (fun p => p.1)
  | reshape n t svc => (r.reshape_num_bins n t svc).map (fun p => p.1)

def runOps (r : Reactor) : List ROp → Option Reactor
  | [] => some r
  | op :: rest =>
      match op.run r with
      | none => none
      | some r2 => runOps r2 rest

/-- Side conditions under which the simulation driver invokes the
operations: nonnegative quantities and service draws, in-range bin ids, at
least one bin requested from a reshape. -/
def ROp.valid (op : ROp) (r : Reactor) : Prop :=
  match op with
  | .reserve q _ bid svc => 0 ≤ q ∧ 0 ≤ svc ∧ bid < r.bins.length
  | .add q _ ids svcs =>
      0 ≤ q ∧ (∀ i, 0 ≤ svcs i) ∧ ∀ i ∈ ids, i < r.bins.length
  | .reshape n _ svc => 1 ≤ n ∧ 0 ≤ svc

/-- All of a pool's bins are well-formed. -/
def Reactor.wf (r : Reactor) : Prop := ∀ b ∈ r.bins, b.wf

/-- Reactor states reachable through the simulation's operations. -/
inductive ReactorReach : Reactor → Prop where
  | init (stock : ℤ) (nbins : ℕ) (created_at service_time : ℚ)
      (hs : 0 ≤ stock) (hn : 1 ≤ nbins) :
      ReactorReach (Reactor.init stock nbins created_at service_time)
  | step (r r2 : Reactor) (op : ROp) (hr : ReactorReach r)
      (hv : op.valid r) (h : op.run r = some r2) : ReactorReach r2

/-- The AdaptTick branch of howveyoubin.perform_experiment when the
controller returns the current bin count unchanged: the driver asserts
`1 < new_bin_num` and `new_bin_num < 1000`, then reshapes. -/
def adapt_tick_same (r : Reactor) (t svc : ℚ) : Option Reactor :=
  if 1 < r.num_bins ∧ r.num_bins < 1000 then
    (r.reshape_num_bins r.num_bins t svc).map (fun p => p.1)
  else none

def run_adapt_ticks (r : Reactor) : List (ℚ × ℚ) → Option Reactor
  | [] => some r
  | (t, svc) :: rest =>
      match adapt_tick_same r t svc with
      | none => none
      | some r2 => run_adapt_ticks r2 rest

/-- Python's `math.floor(t / s)` on rationals, computed as a floor division
of the cross-multiplied numerators/denominators (proved below equal to
⌊t / s⌋ whenever s > 0, which Recorder.__init__ asserts of the sample
rate). -/
def floor_div_q (t s : ℚ) : ℤ :=
  Int.fdiv (t.num * (s.den : ℤ)) ((t.den : ℤ) * s.num)

/-- history_recorder.Recorder, restricted to the state record_event touches:
the five parallel accumulation arrays, the sampling width, the experiment
end and the newest seen timestamp. -/
structure Recorder where
  sample_rate : ℚ
  script_end : ℚ
  oldest_timestamp : ℚ
  queue_waiting_numerator : List ℚ
  service_time_numerator : List ℚ
  stock_numerator : List ℤ
  checked_numerator : List ℤ
  num_records : List ℤ
deriving Repr, DecidableEq

/-- Recorder.__init__ (the record_event-relevant fields): all five arrays
start zero-filled at capacity 1024. -/
def Recorder.mk0 (sample_rate script_end : ℚ) : Recorder :=
  { sample_rate := sample_rate
    script_end := script_end
    oldest_timestamp := 0
    queue_waiting_numerator := List.replicate 1024 0
    service_time_numerator := List.replicate 1024 0
    stock_numerator := List.replicate 1024 0
    checked_numerator := List.replicate 1024 0
    num_records := List.replicate 1024 0 }

/-- Fatal outcomes of Recorder.record_event: a failed argument assert, the
capacity-ceiling assert `new_size <= 32768`, or a numpy IndexError from an
out-of-range bucket access. -/
inductive RecErr where
  | badArg
  | capacity
  | outOfBounds
deriving Repr, DecidableEq

deriving instance DecidableEq for Except

/-- numpy in-place `resize`: zero-pad to the requested size. -/
def resizeZeroQ (l : List ℚ) (n : ℕ) : List ℚ :=
  l ++ List.replicate (n - l.length) 0

def resizeZeroZ (l : List ℤ) (n : ℕ) : List ℤ :=
  l ++ List.replicate (n - l.length) 0

/-- `l[i] += x` with numpy's bounds check. -/
def bumpQ (l : List ℚ) (i : ℕ) (x : ℚ) : Option (List ℚ) :=
  if i < l.length then some (l.set i (l.getD i 0 + x)) else none

def bumpZ (l : List ℤ) (i : ℕ) (x : ℤ) : Option (List ℤ) :=
  if i < l.length then some (l.set i (l.getD i 0 + x)) else none

/-- The single capacity-growth step of Recorder.record_event: when the
bucket index reaches the current length, double (once) after asserting the
ceiling. -/
def Recorder.grow_for (r : Recorder) (bin_index : ℕ) : Except RecErr Recorder :=
  if r.num_records.length ≤ bin_index then
    if ¬ r.num_records.length * 2 ≤ 32768 then .error .capacity
    else .ok { r with
      queue_waiting_numerator :=
        resizeZeroQ r.queue_waiting_numerator (r.num_records.length * 2)
      service_time_numerator :=
        resizeZeroQ r.service_time_numerator (r.num_records.length * 2)
      stock_numerator := resizeZeroZ r.stock_numerator (r.num_records.length * 2)
      checked_numerator :=
        resizeZeroZ r.checked_numerator (r.num_records.length * 2)
      num_records := resizeZeroZ r.num_records (r.num_records.length * 2) }
  else .ok r

/-- history_recorder.Recorder.record_event.  Returns the updated recorder,
or the fatal outcome Python would raise. -/
def Recorder.record_event (r : Recorder) (queue_time service_time : ℚ)
    (stock_left bins_checked : ℤ) (timestamp : ℚ) : Except RecErr Recorder :=
  if r.script_end < timestamp then .ok r
  else if ¬ 0 ≤ timestamp then .error .badArg
  else if ¬ 0 < bins_checked then .error .badArg
  else
    match Recorder.grow_for
        { r with oldest_timestamp := max r.oldest_timestamp timestamp }
        (floor_div_q timestamp r.sample_rate).toNat with
    | .error e => .error e
    | .ok r2 =>
      match bumpQ r2.queue_waiting_numerator
              (floor_div_q timestamp r.sample_rate).toNat queue_time,
            bumpQ r2.service_time_numerator
              (floor_div_q timestamp r.sample_rate).toNat service_time,
            bumpZ r2.stock_numerator
              (floor_div_q timestamp r.sample_rate).toNat stock_left,
            bumpZ r2.checked_numerator
              (floor_div_q timestamp r.sample_rate).toNat bins_checked,
            bumpZ r2.num_records (floor_div_q timestamp r.sample_rate).toNat 1 with
      | some a, some b, some c, some d, some e =>
          .ok { r2 with
            queue_waiting_numerator := a
            service_time_numerator := b
            stock_numerator := c
            checked_numerator := d
            num_records := e }
      | _, _, _, _, _ => .error .outOfBounds

/-- Modelled from the spec: class PIDAdaptor is instantiated by
howveyoubin.plot_timeplot (`adaptors.PIDAdaptor(kp, ki, kd, i_min, i_max)`)
but its source file is missing from the tree; spec section 4.4 defines the
canonical PID variant this models: target utilization 0.1, error = target −
utilization, integral clamped to [i_min, i_max] (anti-windup), derivative =
(error − previous_error)/dt with dt = 0 defensively mapped to 1, decision =
round(kp·error + ki·integral + kd·derivative) + current_count, floored at 1. -/
structure PIDAdaptor where
  kp : ℚ
  ki : ℚ
  kd : ℚ
  i_min : ℚ
  i_max : ℚ
  accumulated_error : ℚ
  previous_error : ℚ
  previous_time : ℚ
deriving Repr, DecidableEq

/-- Construction of a fresh PIDAdaptor with zeroed controller state. -/
def PIDAdaptor.mk0 (kp ki kd i_min i_max : ℚ) : PIDAdaptor :=
  ⟨kp, ki, kd, i_min, i_max, 0, 0, 0⟩

def pid_target : ℚ := 1 / 10

/-- Modelled from the spec: PIDAdaptor.adapt restricted to the inputs the
PID law reads (current bin count, measured utilization, time).  Returns the
decision and the updated controller state. -/
def PIDAdaptor.adapt (a : PIDAdaptor) (current_bins : ℤ) (utilization : ℚ)
    (timestamp : ℚ) : ℤ × PIDAdaptor :=
  (max 1 (round (a.kp * (pid_target - utilization) +
      a.ki * (min a.i_max (max a.i_min
        (a.accumulated_error + (pid_target - utilization)))) +
      a.kd * ((pid_target - utilization - a.previous_error) /
        (if timestamp - a.previous_time = 0 then 1
         else timestamp - a.previous_time))) + current_bins),
   { a with
     accumulated_error :=
       min a.i_max (max a.i_min
         (a.accumulated_error + (pid_target - utilization)))
     previous_error := pid_target - utilization
     previous_time := timestamp })

theorem Bin.wf_init (s : ℤ) (c st : ℚ) (hs : 0 ≤ s) : (Bin.init s c st).wf := by
  refine ⟨by simp [Bin.init], by simp [Bin.init], ?_, ?_, ?_⟩ <;>
    simp [Bin.init, hs]

theorem lock_cons_wf (l : List (ℚ × ℚ)) (e svc : ℚ)
    (hch : List.Chain' (fun x y => y.2 ≤ x.1) l)
    (hse : ∀ p ∈ l, p.1 ≤ p.2)
    (he : (l.headD (0, 0)).2 ≤ e) (hsvc : 0 ≤ svc) :
    List.Chain' (fun x y => y.2 ≤ x.1) ((e, e + svc) :: l) ∧
    (∀ p ∈ (e, e + svc) :: l, p.1 ≤ p.2) := by
  constructor
  · refine List.chain'_cons'.2 ⟨?_, hch⟩
    intro y hy
    cases l with
    | nil => simp at hy
    | cons hd tl =>
      simp only [List.head?_cons, Option.mem_some_iff] at hy
      subst hy
      simpa using he
  · intro p hp
    rcases List.mem_cons.1 hp with h | h
    · subst h; simpa using hsvc
    · exact hse p h

theorem Bin.wf_lock_cons (b : Bin) (hb : b.wf) (t svc : ℚ) (hsvc : 0 ≤ svc) :
    List.Chain' (fun x y => y.2 ≤ x.1)
      ((b.next_unlocked t, b.next_unlocked t + svc) :: b.locked_times) ∧
    (∀ p ∈ (b.next_unlocked t, b.next_unlocked t + svc) :: b.locked_times,
      p.1 ≤ p.2) := by
  obtain ⟨-, -, hch, hse, -⟩ := hb
  exact lock_cons_wf b.locked_times (b.next_unlocked t) svc hch hse
    (le_max_left _ _) hsvc

theorem Bin.wf_reserve (b : Bin) (hb : b.wf) (q : ℤ) (t svc : ℚ)
    (hsvc : 0 ≤ svc) : (b.reserve_stock q t svc).2.wf := by
  have hlock := Bin.wf_lock_cons b hb t svc hsvc
  obtain ⟨hne, hsne, hch, hse, hnn⟩ := hb
  refine ⟨by simp [Bin.reserve_stock], by simp [Bin.reserve_stock], ?_, ?_, ?_⟩
  · exact hlock.1
  · exact hlock.2
  · intro p hp
    simp only [Bin.reserve_stock, List.mem_cons] at hp
    rcases hp with h | h
    · subst h; simp [le_max_iff]
    · exact hnn p h

theorem Bin.wf_add (b : Bin) (hb : b.wf) (q : ℤ) (t svc : ℚ)
    (hq : 0 ≤ q) (hsvc : 0 ≤ svc) : (b.add_stock q t svc).wf := by
  have hlock := Bin.wf_lock_cons b hb t svc hsvc
  obtain ⟨hne, hsne, hch, hse, hnn⟩ := hb
  have hrem : 0 ≤ b.remaining_stock := by
    obtain ⟨p, tl, h⟩ := List.exists_cons_of_ne_nil hsne
    have : p ∈ b.stock := by rw [h]; exact List.mem_cons_self p tl
    simpa [Bin.remaining_stock, h] using hnn p this
  refine ⟨by simp [Bin.add_stock], by simp [Bin.add_stock], ?_, ?_, ?_⟩
  · exact hlock.1
  · exact hlock.2
  · intro p hp
    simp only [Bin.add_stock, List.mem_cons] at hp
    rcases hp with h | h
    · subst h
      have : (0:ℤ) ≤ b.remaining_stock + q := add_nonneg hrem hq
      simpa [Bin.remaining_stock] using this
    · exact hnn p h

theorem Bin.wf_reshape_lock (s : ℤ) (soonest st svc : ℚ) (hs : 0 ≤ s)
    (hsvc : 0 ≤ svc) : ((Bin.init s soonest st).with_reshape_lock soonest svc).wf := by
  refine ⟨by simp [Bin.with_reshape_lock, Bin.init], by simp [Bin.with_reshape_lock, Bin.init],
    ?_, ?_, ?_⟩
  · simp only [Bin.with_reshape_lock, Bin.init]
    exact List.chain'_cons.2 ⟨le_refl soonest, List.chain'_singleton _⟩
  · intro p hp
    simp only [Bin.with_reshape_lock, Bin.init, List.mem_cons,
      List.not_mem_nil, or_false] at hp
    rcases hp with h | h <;> subst h
    · simpa using hsvc
    · simp
  · intro p hp
    simp only [Bin.with_reshape_lock, Bin.init, List.mem_cons,
      List.not_mem_nil, or_false] at hp
    subst hp; simpa using hs

/-- Every reachable bin is well-formed. -/
theorem binReach_wf {b : Bin} (hb : BinReach b) : b.wf := by
  induction hb with
  | init s c st hs => exact Bin.wf_init s c st hs
  | reserve b q t svc hb hsvc ih => exact Bin.wf_reserve b ih q t svc hsvc
  | add b q t svc hb hq hsvc ih => exact Bin.wf_add b ih q t svc hq hsvc
  | reshape s soonest st svc hs hsvc => exact Bin.wf_reshape_lock s soonest st svc hs hsvc

theorem Bin.remaining_stock_nonneg {b : Bin} (hb : b.wf) :
    0 ≤ b.remaining_stock := by
  obtain ⟨-, hsne, -, -, hnn⟩ := hb
  obtain ⟨p, tl, h⟩ := List.exists_cons_of_ne_nil hsne
  have : p ∈ b.stock := by rw [h]; exact List.mem_cons_self p tl
  simpa [Bin.remaining_stock, h] using hnn p this

/-- C2: for every reachable bin state and every reserve_stock call with
quantity ≥ 0, the quantity reserved equals min(quantity, s) for s the bin's
current stock before the call, hence 0 ≤ reserved ≤ quantity and
reserved ≤ s, and the new head ledger entry sits at queue_end + service_time
holding s − reserved.  The function is total: shortfalls surface only through
the returned quantity. -/
theorem reserve_stock_correct (b : Bin) (q : ℤ) (t svc : ℚ)
    (hb : BinReach b) (hq : 0 ≤ q) :
    (b.reserve_stock q t svc).1.2.2 = min q b.remaining_stock ∧
    0 ≤ (b.reserve_stock q t svc).1.2.2 ∧
    (b.reserve_stock q t svc).1.2.2 ≤ q ∧
    (b.reserve_stock q t svc).1.2.2 ≤ b.remaining_stock ∧
    (b.reserve_stock q t svc).2.stock.headD (0, 0) =
      (b.next_unlocked t + svc,
       b.remaining_stock - (b.reserve_stock q t svc).1.2.2) := by
  have hs : 0 ≤ b.remaining_stock := Bin.remaining_stock_nonneg (binReach_wf hb)
  simp only [Bin.remaining_stock] at hs
  simp only [Bin.reserve_stock, Bin.remaining_stock, List.headD_cons]
  refine ⟨by omega, by omega, by omega, by omega, ?_⟩
  have h : (b.stock.headD (0, 0)).2 -
      ((b.stock.headD (0, 0)).2 - max 0 ((b.stock.headD (0, 0)).2 - q)) =
      max 0 ((b.stock.headD (0, 0)).2 - q) := by omega
  rw [h]

/-- Witness for C2 at a concrete bin. -/
theorem reserve_stock_correct_w :
    (0:ℤ) ≤ 3 ∧
    (((Bin.init 5 0 1).reserve_stock 3 0 1).1.2.2 =
        min 3 (Bin.init 5 0 1).remaining_stock ∧
      0 ≤ ((Bin.init 5 0 1).reserve_stock 3 0 1).1.2.2 ∧
      ((Bin.init 5 0 1).reserve_stock 3 0 1).1.2.2 ≤ 3 ∧
      ((Bin.init 5 0 1).reserve_stock 3 0 1).1.2.2 ≤ (Bin.init 5 0 1).remaining_stock ∧
      ((Bin.init 5 0 1).reserve_stock 3 0 1).2.stock.headD (0, 0) =
        ((Bin.init 5 0 1).next_unlocked 0 + 1,
         (Bin.init 5 0 1).remaining_stock -
           ((Bin.init 5 0 1).reserve_stock 3 0 1).1.2.2)) :=
  ⟨by decide,
   reserve_stock_correct (Bin.init 5 0 1) 3 0 1
     (BinReach.init 5 0 1 (by decide)) (by decide)⟩

/-- C1 counterexample: inserting an action whose timestamp equals that of an
action already in the list places the new action BEFORE the existing one,
not after it as the claim states. -/
theorem insert_action_sorted_not_fifo :
    insert_action_sorted ⟨5, 1⟩ [⟨5, 0⟩] = [⟨5, 1⟩, ⟨5, 0⟩] ∧
    insert_action_sorted ⟨5, 1⟩ [⟨5, 0⟩] ≠ [⟨5, 0⟩, ⟨5, 1⟩] := by
  constructor <;> decide

/-- C1 (amended): inserting into a non-decreasingly sorted pending-action
list keeps it sorted, and the new action is placed before every action
already in the list whose timestamp is not strictly smaller — in particular
before all equal-timestamp actions (LIFO, not FIFO, among ties). -/
theorem insert_action_sorted_spec (action : Action) (lst : List Action)
    (hs : List.Sorted (fun a b : Action => a.timestamp ≤ b.timestamp) lst) :
    List.Sorted (fun a b : Action => a.timestamp ≤ b.timestamp)
      (insert_action_sorted action lst) ∧
    ∃ l1 l2, lst = l1 ++ l2 ∧
      insert_action_sorted action lst = l1 ++ action :: l2 ∧
      ∀ x ∈ l1, x.timestamp < action.timestamp := by
  induction lst with
  | nil =>
    exact ⟨List.sorted_singleton _, [], [], rfl, rfl, by simp⟩
  | cons x rest ih =>
    simp only [insert_action_sorted]
    by_cases hx : x.timestamp < action.timestamp
    · rw [if_pos hx]
      have hx_rest : ∀ b ∈ rest, x.timestamp ≤ b.timestamp :=
        (List.sorted_cons.1 hs).1
      have hrest : List.Sorted (fun a b : Action => a.timestamp ≤ b.timestamp) rest :=
        (List.sorted_cons.1 hs).2
      obtain ⟨hsorted, l1, l2, heq, hres, hlt⟩ := ih hrest
      have hmem : ∀ b ∈ insert_action_sorted action rest, b = action ∨ b ∈ rest := by
        intro b hb
        rw [hres] at hb
        rcases List.mem_append.1 hb with h | h
        · right; rw [heq]; exact List.mem_append.2 (Or.inl h)
        · rcases List.mem_cons.1 h with h | h
          · left; exact h
          · right; rw [heq]; exact List.mem_append.2 (Or.inr h)
      refine ⟨List.sorted_cons.2 ⟨?_, hsorted⟩, x :: l1, l2,
        by simp [heq], by simp [hres], ?_⟩
      · intro b hb
        rcases hmem b hb with h | h
        · subst h; exact le_of_lt hx
        · exact hx_rest b h
      · intro y hy
        rcases List.mem_cons.1 hy with h | h
        · subst h; exact hx
        · exact hlt y h
    · rw [if_neg hx]
      have hax : action.timestamp ≤ x.timestamp := le_of_not_lt hx
      have hx_rest : ∀ b ∈ rest, x.timestamp ≤ b.timestamp :=
        (List.sorted_cons.1 hs).1
      refine ⟨List.sorted_cons.2 ⟨?_, hs⟩, [], x :: rest, rfl, rfl, by simp⟩
      intro b hb
      rcases List.mem_cons.1 hb with h | h
      · subst h; exact hax
      · exact le_trans hax (hx_rest b h)

/-- Witness for C1's amended theorem at a concrete sorted list. -/
theorem insert_action_sorted_spec_w :
    List.Sorted (fun a b : Action => a.timestamp ≤ b.timestamp)
      [⟨1, 0⟩, ⟨5, 1⟩] ∧
    (List.Sorted (fun a b : Action => a.timestamp ≤ b.timestamp)
        (insert_action_sorted ⟨5, 2⟩ [⟨1, 0⟩, ⟨5, 1⟩]) ∧
      ∃ l1 l2, ([⟨1, 0⟩, ⟨5, 1⟩] : List Action) = l1 ++ l2 ∧
        insert_action_sorted ⟨5, 2⟩ [⟨1, 0⟩, ⟨5, 1⟩] = l1 ++ ⟨5, 2⟩ :: l2 ∧
        ∀ x ∈ l1, x.timestamp < (5 : ℚ)) :=
  ⟨by decide, insert_action_sorted_spec ⟨5, 2⟩ [⟨1, 0⟩, ⟨5, 1⟩] (by decide)⟩

theorem getLastD_eq_headD_reverse (l : List (ℚ × ℚ)) (d : ℚ × ℚ) :
    l.getLastD d = l.reverse.headD d := by
  induction l generalizing d with
  | nil => rfl
  | cons x rest ih =>
    cases hr : rest with
    | nil => rfl
    | cons y t =>
      rw [← hr]
      have h1 : (x :: rest).getLastD d = rest.getLastD d := by
        rw [hr]; rfl
      rw [h1, ih]
      have h2 : (x :: rest).reverse = rest.reverse ++ [x] := by simp
      rw [h2]
      have hne : rest.reverse ≠ [] := by simp [hr]
      obtain ⟨h, t2, hh⟩ := List.exists_cons_of_ne_nil hne
      rw [hh]; rfl

theorem chain_forward_lb (p : ℚ × ℚ) (rest : List (ℚ × ℚ))
    (hch : List.Chain' (fun x y => x.2 ≤ y.1) (p :: rest))
    (hse : ∀ q ∈ p :: rest, q.1 ≤ q.2) :
    ∀ q ∈ rest, p.2 ≤ q.1 := by
  induction rest generalizing p with
  | nil => intro q hq; simp at hq
  | cons x rest ih =>
    intro q hq
    have hpx : p.2 ≤ x.1 := (List.chain'_cons.1 hch).1
    rcases List.mem_cons.1 hq with h | h
    · subst h; exact hpx
    · have hx : x.1 ≤ x.2 :=
        hse x (List.mem_cons_of_mem p (List.mem_cons_self x rest))
      have hseq : ∀ r ∈ x :: rest, r.1 ≤ r.2 :=
        fun r hr => hse r (List.mem_cons_of_mem p hr)
      have := ih x (List.chain'_cons.1 hch).2 hseq q h
      linarith

theorem lockTerm_nonneg (w upto : ℚ) (p : ℚ × ℚ) (hp : p.1 ≤ p.2)
    (hw : w ≤ upto) : 0 ≤ lockTerm w upto p := by
  unfold lockTerm
  by_cases h1 : upto ≤ p.1
  · rw [if_pos h1]
  · rw [if_neg h1]
    by_cases h2 : p.2 < w
    · rw [if_pos h2]
    · rw [if_neg h2]
      push_neg at h1 h2
      have h : max w p.1 ≤ min upto p.2 :=
        max_le (le_min hw h2) (le_min (le_of_lt h1) hp)
      linarith

/-- Clipped lock-interval lengths over a chronologically ordered, pairwise
disjoint interval list are bounded by the window length. -/
theorem lockSum_le (l : List (ℚ × ℚ)) (upto : ℚ) :
    ∀ (w lb : ℚ),
      List.Chain' (fun x y => x.2 ≤ y.1) l →
      (∀ p ∈ l, p.1 ≤ p.2) →
      (∀ p ∈ l, lb ≤ p.1) →
      w ≤ upto →
      (l.map (lockTerm w upto)).sum ≤ max 0 (upto - max w lb) := by
  induction l with
  | nil =>
    intro w lb _ _ _ _
    simp only [List.map_nil, List.sum_nil]
    exact le_max_left 0 _
  | cons p rest ih =>
    intro w lb hch hse hlb hw
    have hp_se : p.1 ≤ p.2 := hse p (List.mem_cons_self p rest)
    have hp_lb : lb ≤ p.1 := hlb p (List.mem_cons_self p rest)
    have hrest_se : ∀ q ∈ rest, q.1 ≤ q.2 :=
      fun q hq => hse q (List.mem_cons_of_mem p hq)
    have hrest_lb : ∀ q ∈ rest, p.2 ≤ q.1 := chain_forward_lb p rest hch hse
    have hch' : List.Chain' (fun x y => x.2 ≤ y.1) rest :=
      (List.chain'_cons'.1 hch).2
    have hih := ih w p.2 hch' hrest_se hrest_lb hw
    simp only [List.map_cons, List.sum_cons]
    have hmono : max 0 (upto - max w p.2) ≤ max 0 (upto - max w lb) := by
      have h1 : max w lb ≤ max w p.2 :=
        max_le (le_max_left _ _)
          (le_trans (le_trans hp_lb hp_se) (le_max_right _ _))
      have h2 : upto - max w p.2 ≤ upto - max w lb := by linarith
      exact max_le_max (le_refl 0) h2
    by_cases h1 : upto ≤ p.1
    · have hterm : lockTerm w upto p = 0 := by
        unfold lockTerm; rw [if_pos h1]
      rw [hterm]; linarith
    · by_cases h2 : p.2 < w
      · have hterm : lockTerm w upto p = 0 := by
          unfold lockTerm; rw [if_neg h1, if_pos h2]
        rw [hterm]; linarith
      · have hterm : lockTerm w upto p = min upto p.2 - max w p.1 := by
          unfold lockTerm; rw [if_neg h1, if_neg h2]
        rw [hterm]
        push_neg at h1 h2
        have hrhs : max 0 (upto - max w lb) = upto - max w lb := by
          have : max w lb ≤ upto := max_le hw (le_trans hp_lb (le_of_lt h1))
          rw [max_eq_right]; linarith
        rw [hrhs]
        have hlbs : max w lb ≤ max w p.1 :=
          max_le (le_max_left _ _) (le_trans hp_lb (le_max_right _ _))
        rcases le_or_lt upto p.2 with he | he
        · have hmin : min upto p.2 = upto := min_eq_left he
          have hrest0 : max 0 (upto - max w p.2) = 0 := by
            have : upto ≤ max w p.2 := le_trans he (le_max_right _ _)
            rw [max_eq_left]; linarith
          rw [hmin]
          rw [hrest0] at hih
          have hws : max w p.1 ≤ upto := max_le hw (le_of_lt h1)
          linarith
        · have hmin : min upto p.2 = p.2 := min_eq_right (le_of_lt he)
          have hmaxe : max w p.2 = p.2 := max_eq_right h2
          rw [hmin]
          rw [hmaxe] at hih
          have hb2 : max 0 (upto - p.2) = upto - p.2 := by
            rw [max_eq_right]; linarith
          rw [hb2] at hih
          linarith

/-- C7 counterexample: a freshly created bin (creation time 10) queried over
the window [0, 10) — `to > since`, yet Python divides by
`to - max(since, locked_times[0][0]) = 0` and raises ZeroDivisionError
instead of returning a value in [0,1]. -/
theorem utilization_percent_div_zero :
    BinReach (Bin.init 5 10 1) ∧ (0 : ℚ) < 10 ∧
    (Bin.init 5 10 1).utilization_percent 0 10 = none :=
  ⟨BinReach.init 5 10 1 (by decide), by decide,
   by norm_num [Bin.utilization_percent, Bin.first_lock_start, Bin.init]⟩

/-- C7 (amended): for every reachable bin state, utilization_percent returns
exactly 1 when to = since, and for every window with to > since in which
`max(since, first lock start)` differs from `to` (otherwise Python divides
by zero) it returns a value in [0,1]. -/
theorem utilization_percent_in_unit (b : Bin) (since upto : ℚ)
    (hb : BinReach b) :
    (upto = since → b.utilization_percent since upto = some 1) ∧
    (since < upto → max since b.first_lock_start ≠ upto →
      ∃ v, b.utilization_percent since upto = some v ∧ 0 ≤ v ∧ v ≤ 1) := by
  obtain ⟨hlne, -, hch, hse, -⟩ := (binReach_wf hb)
  constructor
  · intro h; simp [Bin.utilization_percent, h]
  · intro hlt hne2
    have hto : upto ≠ since := ne_of_gt hlt
    have hden : upto - max since b.first_lock_start ≠ 0 :=
      fun h => hne2 (sub_eq_zero.1 h).symm
    rw [Bin.utilization_percent, if_neg hto, if_neg hden]
    have hrne : b.locked_times.reverse ≠ [] := by simpa using hlne
    obtain ⟨f, rest2, hlr⟩ := List.exists_cons_of_ne_nil hrne
    have hfirst : b.first_lock_start = f.1 := by
      rw [Bin.first_lock_start, getLastD_eq_headD_reverse, hlr]; rfl
    have hchr : List.Chain' (fun x y => x.2 ≤ y.1) b.locked_times.reverse := by
      rw [List.chain'_reverse]; exact hch
    have hser : ∀ q ∈ b.locked_times.reverse, q.1 ≤ q.2 :=
      fun q hq => hse q (List.mem_reverse.1 hq)
    have hlbr : ∀ q ∈ b.locked_times.reverse, f.1 ≤ q.1 := by
      intro q hq
      rw [hlr] at hq
      rcases List.mem_cons.1 hq with h | h
      · subst h; exact le_refl _
      · have hf_se : f.1 ≤ f.2 := by
          refine hser f ?_
          rw [hlr]; exact List.mem_cons_self f rest2
        have := chain_forward_lb f rest2 (by rw [← hlr]; exact hchr)
          (by rw [← hlr]; exact hser) q h
        linarith
    have hsum_eq :
        (b.locked_times.map (lockTerm (max since b.first_lock_start) upto)).sum =
        (b.locked_times.reverse.map
          (lockTerm (max since b.first_lock_start) upto)).sum := by
      rw [List.map_reverse, List.sum_reverse]
    rcases (sub_ne_zero.1 hden).lt_or_lt with hwg | hwl
    · -- to < max since first_lock_start: every interval starts after `to`,
      -- the numerator is 0 and so is the result
      have hwf1 : max since b.first_lock_start = b.first_lock_start := by
        rcases max_cases since b.first_lock_start with ⟨h1, h2⟩ | ⟨h1, h2⟩
        · exfalso; rw [h1] at hwg; linarith
        · exact h1
      have hall0 : ∀ p ∈ b.locked_times,
          lockTerm (max since b.first_lock_start) upto p = 0 := by
        intro p hp
        have hp1 : f.1 ≤ p.1 := hlbr p (List.mem_reverse.2 hp)
        have hto_p : upto ≤ p.1 := by
          rw [hwf1, hfirst] at hwg
          linarith
        unfold lockTerm
        rw [if_pos hto_p]
      have hN : (b.locked_times.map
          (lockTerm (max since b.first_lock_start) upto)).sum = 0 := by
        apply List.sum_eq_zero
        intro x hx
        obtain ⟨p, hp, rfl⟩ := List.mem_map.1 hx
        exact hall0 p hp
      refine ⟨_, rfl, ?_, ?_⟩
      · rw [hN, zero_div]
      · rw [hN, zero_div]; exact zero_le_one
    · -- max since first_lock_start < to: the standard case
      have hN0 : 0 ≤ (b.locked_times.map
          (lockTerm (max since b.first_lock_start) upto)).sum := by
        apply List.sum_nonneg
        intro x hx
        obtain ⟨p, hp, rfl⟩ := List.mem_map.1 hx
        exact lockTerm_nonneg _ upto p (hse p hp) (le_of_lt hwl)
      have hN1 : (b.locked_times.map
          (lockTerm (max since b.first_lock_start) upto)).sum ≤
          upto - max since b.first_lock_start := by
        rw [hsum_eq]
        have hbound := lockSum_le b.locked_times.reverse upto
          (max since b.first_lock_start) f.1 hchr hser hlbr (le_of_lt hwl)
        have hmax : max (max since b.first_lock_start) f.1 =
            max since b.first_lock_start := by
          apply max_eq_left
          rw [hfirst] at *
          exact le_max_right _ _
        rw [hmax] at hbound
        have : max 0 (upto - max since b.first_lock_start) =
            upto - max since b.first_lock_start := by
          rw [max_eq_right]; linarith
        rw [this] at hbound
        exact hbound
      refine ⟨_, rfl, ?_, ?_⟩
      · exact div_nonneg hN0 (by linarith)
      · rw [div_le_one (by linarith)]
        exact hN1

/-- Witness for C7's amended theorem at a concrete bin and window. -/
theorem utilization_percent_in_unit_w :
    BinReach (Bin.init 5 0 1) ∧
    (((2 : ℚ) = 0 → (Bin.init 5 0 1).utilization_percent 0 2 = some 1) ∧
      ((0 : ℚ) < 2 → max (0 : ℚ) (Bin.init 5 0 1).first_lock_start ≠ 2 →
        ∃ v, (Bin.init 5 0 1).utilization_percent 0 2 = some v ∧
          0 ≤ v ∧ v ≤ 1)) :=
  ⟨BinReach.init 5 0 1 (by decide),
   utilization_percent_in_unit (Bin.init 5 0 1) 0 2
     (BinReach.init 5 0 1 (by decide))⟩

theorem ceil_div_eq_ceil (a : ℤ) (b : ℕ) (hb : 0 < b) :
    ceil_div a b = ⌈(a : ℚ) / (b : ℚ)⌉ := by
  unfold ceil_div
  rw [Int.fdiv_eq_ediv _ (by positivity)]
  have h1 : ⌈(a : ℚ) / (b : ℚ)⌉ = -⌊-((a : ℚ) / (b : ℚ))⌋ := by
    rw [Int.floor_neg]; ring
  rw [h1, ← neg_div, ← Int.cast_neg, Rat.floor_intCast_div_natCast]

theorem le_mul_ceil_div (a : ℤ) (b : ℕ) (hb : 0 < b) :
    a ≤ (b : ℤ) * ceil_div a b := by
  unfold ceil_div
  rw [Int.fdiv_eq_ediv _ (by positivity)]
  have h := Int.ediv_mul_le (-a) (b := (b : ℤ)) (by positivity)
  nlinarith [h]

theorem ceil_div_nonneg (a : ℤ) (b : ℕ) (ha : 0 ≤ a) : 0 ≤ ceil_div a b := by
  cases Nat.eq_zero_or_pos b with
  | inl h => subst h; simp [ceil_div, Int.fdiv_zero]
  | inr h =>
    have hle := le_mul_ceil_div a b h
    by_contra hneg
    push_neg at hneg
    have hb2 : (0 : ℤ) < (b : ℤ) := by positivity
    nlinarith

theorem assign_amounts_length (c q : ℤ) :
    ∀ (n : ℕ) (a : ℤ), (assign_amounts c q n a).length = n := by
  intro n
  induction n with
  | zero => intro a; rfl
  | succ n ih => intro a; simp only [assign_amounts, List.length_cons, ih]

theorem assign_amounts_nonneg (c q : ℤ) (hc : 0 ≤ c) :
    ∀ (n : ℕ) (a : ℤ), a ≤ q → ∀ x ∈ assign_amounts c q n a, 0 ≤ x := by
  intro n
  induction n with
  | zero => intro a ha x hx; simp [assign_amounts] at hx
  | succ n ih =>
    intro a ha x hx
    simp only [assign_amounts, List.mem_cons] at hx
    rcases hx with h | h
    · omega
    · exact ih (a + min c (q - a)) (by omega) x h

theorem assign_amounts_sum (c q : ℤ) (hc : 0 ≤ c) :
    ∀ (n : ℕ) (a : ℤ), a ≤ q →
      (assign_amounts c q n a).sum = min (q - a) ((n : ℤ) * c) := by
  intro n
  induction n with
  | zero =>
    intro a ha
    simp only [assign_amounts, List.sum_nil, Nat.cast_zero, zero_mul]
    omega
  | succ n ih =>
    intro a ha
    simp only [assign_amounts, List.sum_cons]
    rw [ih (a + min c (q - a)) (by omega)]
    have hd : 0 ≤ (n : ℤ) * c := mul_nonneg (Int.natCast_nonneg n) hc
    have hstep : ((n + 1 : ℕ) : ℤ) * c = (n : ℤ) * c + c := by push_cast; ring
    rw [hstep]
    generalize (n : ℤ) * c = d at hd ⊢
    omega

theorem getD_mem_of_lt {α : Type} (l : List α) (i : ℕ) (d : α)
    (h : i < l.length) : l.getD i d ∈ l := by
  induction l generalizing i with
  | nil => simp at h
  | cons x rest ih =>
    cases i with
    | zero => simp [List.getD_cons_zero]
    | succ j =>
      simp only [List.getD_cons_succ]
      exact List.mem_cons_of_mem x (ih j (by simpa using h))

theorem rem_add_stock (b : Bin) (x : ℤ) (t s2 : ℚ) :
    (b.add_stock x t s2).remaining_stock = b.remaining_stock + x := rfl

theorem sum_rem_set_add (bins : List Bin) :
    ∀ (bid : ℕ), bid < bins.length → ∀ (x : ℤ) (t s2 : ℚ),
      ((bins.set bid ((bins.getD bid (Bin.init 0 0 0)).add_stock x t s2)).map
        Bin.remaining_stock).sum = (bins.map Bin.remaining_stock).sum + x := by
  induction bins with
  | nil => intro bid h; simp at h
  | cons b rest ih =>
    intro bid hbid x t s2
    cases bid with
    | zero =>
      simp only [List.getD_cons_zero, List.set_cons_zero, List.map_cons,
        List.sum_cons, rem_add_stock]
      ring
    | succ j =>
      simp only [List.getD_cons_succ, List.set_cons_succ, List.map_cons,
        List.sum_cons]
      rw [ih j (by simpa using hbid) x t s2]
      ring

theorem add_stock_loop_wf (c q : ℤ) (t : ℚ) (svcs : ℕ → ℚ)
    (hc : 0 ≤ c) (hsvc : ∀ i, 0 ≤ svcs i) :
    ∀ (ids : List ℕ) (i : ℕ) (bins : List Bin) (a : ℤ),
      (∀ b ∈ bins, b.wf) → (∀ j ∈ ids, j < bins.length) → a ≤ q →
      (∀ b ∈ (add_stock_loop c q t svcs ids i bins a).1, b.wf) ∧
      (add_stock_loop c q t svcs ids i bins a).1.length = bins.length := by
  intro ids
  induction ids with
  | nil => intro i bins a hwf hv ha; exact ⟨hwf, rfl⟩
  | cons bid rest ih =>
    intro i bins a hwf hv ha
    simp only [add_stock_loop]
    have hbid : bid < bins.length := hv bid (List.mem_cons_self bid rest)
    have hwf2 : ∀ b ∈ bins.set bid ((bins.getD bid (Bin.init 0 0 0)).add_stock
        (min c (q - a)) t (svcs i)), b.wf := by
      intro b hb
      rcases List.mem_or_eq_of_mem_set hb with h | h
      · exact hwf b h
      · subst h
        exact Bin.wf_add _ (hwf _ (getD_mem_of_lt bins bid _ hbid)) _ t (svcs i)
          (by omega) (hsvc i)
    obtain ⟨h1, h2⟩ := ih (i + 1)
      (bins.set bid ((bins.getD bid (Bin.init 0 0 0)).add_stock
        (min c (q - a)) t (svcs i)))
      (a + min c (q - a)) hwf2
      (by intro j hj; rw [List.length_set]
          exact hv j (List.mem_cons_of_mem bid hj))
      (by omega)
    exact ⟨h1, by rw [h2, List.length_set]⟩

theorem add_stock_loop_sum (c q : ℤ) (t : ℚ) (svcs : ℕ → ℚ) (hc : 0 ≤ c) :
    ∀ (ids : List ℕ) (i : ℕ) (bins : List Bin) (a : ℤ),
      (∀ j ∈ ids, j < bins.length) → a ≤ q →
      ((add_stock_loop c q t svcs ids i bins a).1.map Bin.remaining_stock).sum
        = (bins.map Bin.remaining_stock).sum +
          min (q - a) ((ids.length : ℤ) * c) := by
  intro ids
  induction ids with
  | nil =>
    intro i bins a hv ha
    simp only [add_stock_loop, List.length_nil, Nat.cast_zero, zero_mul]
    have hmin : min (q - a) 0 = 0 := by omega
    rw [hmin, add_zero]
  | cons bid rest ih =>
    intro i bins a hv ha
    simp only [add_stock_loop]
    have hbid : bid < bins.length := hv bid (List.mem_cons_self bid rest)
    rw [ih (i + 1) _ (a + min c (q - a))
      (by intro j hj; rw [List.length_set]
          exact hv j (List.mem_cons_of_mem bid hj))
      (by omega)]
    rw [sum_rem_set_add bins bid hbid (min c (q - a)) t (svcs i)]
    have hd : 0 ≤ (rest.length : ℤ) * c := mul_nonneg (Int.natCast_nonneg _) hc
    have hstep : (((bid :: rest).length : ℕ) : ℤ) * c =
        (rest.length : ℤ) * c + c := by
      push_cast [List.length_cons]; ring
    rw [hstep]
    generalize (rest.length : ℤ) * c = d at hd ⊢
    omega

theorem stock_available_nonneg (r : Reactor) (hw : r.wf) :
    0 ≤ r.stock_available := by
  apply List.sum_nonneg
  intro x hx
  obtain ⟨b, hb, rfl⟩ := List.mem_map.1 hx
  exact Bin.remaining_stock_nonneg (hw b hb)

/-- Every reachable pool consists of well-formed bins. -/
theorem reactorReach_wf {r : Reactor} (hr : ReactorReach r) : r.wf := by
  induction hr with
  | init stock nbins c st hs hn =>
    intro b hb
    simp only [Reactor.init] at hb
    obtain ⟨s, hsmem, rfl⟩ := List.mem_map.1 hb
    exact Bin.wf_init s c st
      (assign_amounts_nonneg _ _ (ceil_div_nonneg stock nbins hs) nbins 0 hs
        s hsmem)
  | step r r2 op hr hv h ih =>
    cases op with
    | reserve q t bid svc =>
      obtain ⟨hq, hsvc, hbid⟩ := hv
      simp only [ROp.run, Reactor.reserve_stock] at h
      by_cases hpre : r.last_time_used ≤ t
      · rw [if_pos hpre] at h
        simp only [Option.map_some'] at h
        have h2 := Option.some.inj h
        subst h2
        intro b hb
        rcases List.mem_or_eq_of_mem_set hb with hm | hm
        · exact ih b hm
        · subst hm
          exact Bin.wf_reserve _ (ih _ (getD_mem_of_lt r.bins bid _ hbid))
            q t svc hsvc
      · rw [if_neg hpre] at h; simp at h
    | add q t ids svcs =>
      obtain ⟨hq, hsvc, hids⟩ := hv
      simp only [ROp.run, Reactor.add_stock] at h
      by_cases hpre : r.last_time_used ≤ t
      · rw [if_pos hpre] at h
        simp only [Option.map_some'] at h
        have h2 := Option.some.inj h
        subst h2
        intro b hb
        exact (add_stock_loop_wf _ q t svcs (ceil_div_nonneg q _ hq) hsvc
          ids 0 r.bins 0 ih hids hq).1 b hb
      · rw [if_neg hpre] at h; simp at h
    | reshape n t svc =>
      obtain ⟨hn, hsvc⟩ := hv
      simp only [ROp.run, Reactor.reshape_num_bins] at h
      by_cases hpre : r.last_time_used ≤ t
      · rw [if_pos hpre] at h
        by_cases hlen : r.bins.length = n
        · rw [if_pos hlen] at h
          simp only [Option.map_some'] at h
          have h2 := Option.some.inj h
          subst h2
          intro b hb
          exact ih b hb
        · rw [if_neg hlen] at h
          simp only [Option.map_some'] at h
          have h2 := Option.some.inj h
          subst h2
          intro b hb
          simp only [] at hb
          obtain ⟨s, hsmem, rfl⟩ := List.mem_map.1 hb
          have hs0 : 0 ≤ s :=
            assign_amounts_nonneg _ _
              (ceil_div_nonneg r.stock_available n
                (stock_available_nonneg r ih)) n 0
              (stock_available_nonneg r ih) s hsmem
          exact Bin.wf_reshape_lock s _ _ svc hs0 hsvc
      · rw [if_neg hpre] at h; simp at h

/-- C3: for every reachable pool state, n ≥ 1 and timestamp at or after the
watermark, reshape_num_bins changes the total stock across the pool by at
most n — covering both the unchanged-count no-op path and the
discard-and-redistribute path (where the even-split/remainder rule in fact
preserves the total exactly). -/
theorem reshape_num_bins_stock (r : Reactor) (n : ℕ) (t svc : ℚ)
    (hr : ReactorReach r) (hn : 1 ≤ n) (ht : r.last_time_used ≤ t) :
    ∀ res, r.reshape_num_bins n t svc = some res →
      |res.1.stock_available - r.stock_available| ≤ (n : ℤ) := by
  intro res h
  rw [Reactor.reshape_num_bins, if_pos ht] at h
  have hs0 : 0 ≤ r.stock_available := stock_available_nonneg r (reactorReach_wf hr)
  by_cases hlen : r.bins.length = n
  · rw [if_pos hlen] at h
    have h2 := Option.some.inj h
    have hstock : res.1.stock_available = r.stock_available := by
      rw [← h2]; rfl
    rw [hstock, sub_self, abs_zero]
    positivity
  · rw [if_neg hlen] at h
    have h2 := Option.some.inj h
    have hstock : res.1.stock_available = r.stock_available := by
      rw [← h2]
      show ((((assign_amounts (ceil_div r.stock_available n)
          r.stock_available n 0).map
        (fun s => (Bin.init s (reshape_soonest r.bins t)
            r.service_time).with_reshape_lock
          (reshape_soonest r.bins t) svc)).map Bin.remaining_stock).sum) =
        r.stock_available
      rw [List.map_map]
      have hmap : (Bin.remaining_stock ∘ fun s =>
          (Bin.init s (reshape_soonest r.bins t)
            r.service_time).with_reshape_lock
          (reshape_soonest r.bins t) svc) = id := by
        funext s; rfl
      rw [hmap, List.map_id]
      rw [assign_amounts_sum _ _ (ceil_div_nonneg _ n hs0) n 0 hs0]
      have hle := le_mul_ceil_div r.stock_available n (by omega)
      generalize (n : ℤ) * ceil_div r.stock_available n = d at hle ⊢
      omega
    rw [hstock, sub_self, abs_zero]
    positivity

/-- Witness for C3 at a concrete reachable 3-bin pool reshaped to 2 bins. -/
theorem reshape_num_bins_stock_w :
    (1 : ℕ) ≤ 2 ∧ (Reactor.init 6 3 0 1).last_time_used ≤ 1 ∧
    ∃ res, (Reactor.init 6 3 0 1).reshape_num_bins 2 1 0 = some res ∧
      |res.1.stock_available - (Reactor.init 6 3 0 1).stock_available| ≤
        (2 : ℤ) := by
  refine ⟨by decide, by decide, ?_⟩
  cases hres : (Reactor.init 6 3 0 1).reshape_num_bins 2 1 0 with
  | none => exact absurd hres (by decide)
  | some res =>
    exact ⟨res, rfl, reshape_num_bins_stock (Reactor.init 6 3 0 1) 2 1 0
      (ReactorReach.init 6 3 0 1 (by decide) (by decide)) (by decide)
      (by decide) res hres⟩

/-- C10: add_stock with explicit target ids computes the per-bin share from
the TOTAL number of bins, so the total actually added is
min(quantity, len(ids)·ceil(quantity/num_bins)); the second conjunct
exhibits a proper subset (one of three bins, quantity 10) where only 4 of
the 10 units are added and the shortfall is silently dropped. -/
theorem add_stock_subset_total (r : Reactor) (q : ℤ) (t : ℚ) (ids : List ℕ)
    (svcs : ℕ → ℚ) (hq : 0 ≤ q) (hids : ∀ i ∈ ids, i < r.bins.length)
    (ht : r.last_time_used ≤ t) :
    (∀ res, r.add_stock q t ids svcs = some res →
      res.1.stock_available - r.stock_available =
        min q ((ids.length : ℤ) * ceil_div q r.bins.length)) ∧
    (∃ res, (Reactor.init 0 3 0 1).add_stock 10 0 [0] (fun _ => 0) =
        some res ∧
      res.1.stock_available - (Reactor.init 0 3 0 1).stock_available = 4 ∧
      (4 : ℤ) < 10) := by
  constructor
  · intro res h
    rw [Reactor.add_stock, if_pos ht] at h
    have h2 := Option.some.inj h
    have hstock : res.1.stock_available =
        r.stock_available + min q ((ids.length : ℤ) * ceil_div q r.bins.length) := by
      rw [← h2]
      show ((add_stock_loop (ceil_div q r.bins.length) q t svcs ids 0
          r.bins 0).1.map Bin.remaining_stock).sum = _
      rw [add_stock_loop_sum _ q t svcs (ceil_div_nonneg q _ hq) ids 0 r.bins 0
        hids hq]
      rw [sub_zero]
      rfl
    rw [hstock]; ring
  · cases hres : (Reactor.init 0 3 0 1).add_stock 10 0 [0] (fun _ => 0) with
    | none => exact absurd hres (by decide)
    | some res =>
      refine ⟨res, rfl, ?_, by decide⟩
      have := Option.some.inj hres
      rw [← this]
      decide

/-- Witness for C10's universal part at a concrete two-of-three-bins call. -/
theorem add_stock_subset_total_w :
    (0 : ℤ) ≤ 10 ∧ (∀ i ∈ [0, 1], i < (Reactor.init 0 3 0 1).bins.length) ∧
    (Reactor.init 0 3 0 1).last_time_used ≤ 0 ∧
    ∃ res, (Reactor.init 0 3 0 1).add_stock 10 0 [0, 1] (fun _ => 0) =
        some res ∧
      res.1.stock_available - (Reactor.init 0 3 0 1).stock_available =
        min 10 ((([0, 1] : List ℕ).length : ℤ) *
          ceil_div 10 (Reactor.init 0 3 0 1).bins.length) := by
  refine ⟨by decide, by decide, by decide, ?_⟩
  cases hres : (Reactor.init 0 3 0 1).add_stock 10 0 [0, 1] (fun _ => 0) with
  | none => exact absurd hres (by decide)
  | some res =>
    exact ⟨res, rfl, (add_stock_subset_total (Reactor.init 0 3 0 1) 10 0
      [0, 1] (fun _ => 0) (by decide) (by decide) (by decide)).1 res hres⟩

/-- C4 counterexample: add_stock(10) on a fresh 3-bin pool (shuffle order
[0,1,2]) leaves per-bin stocks [4, 4, 2] — the assignment loop gives
ceil(10/3)=4 to the first TWO targeted bins and 2 to the last — and
[4, 4, 2] is not a permutation of the claimed [4, 3, 3]. -/
theorem add_stock_distribution_cx :
    ((Reactor.init 0 3 0 1).add_stock 10 0 [0, 1, 2] (fun _ => 0)).map
      (fun res => res.1.bins.map Bin.remaining_stock) = some [4, 4, 2] ∧
    ¬ ([4, 4, 2] : List ℤ).Perm [4, 3, 3] := by
  constructor
  · decide
  · decide

/-- The six lists that are permutations of [0, 1, 2]. -/
theorem perm_012 (ids : List ℕ) (h : ids.Perm [0, 1, 2]) :
    ids = [0, 1, 2] ∨ ids = [0, 2, 1] ∨ ids = [1, 0, 2] ∨ ids = [1, 2, 0] ∨
    ids = [2, 0, 1] ∨ ids = [2, 1, 0] := by
  have hlen : ids.length = 3 := h.length_eq
  obtain ⟨a, b, c, rfl⟩ : ∃ a b c, ids = [a, b, c] := by
    match ids, hlen with
    | [a, b, c], _ => exact ⟨a, b, c, rfl⟩
  have ha : a = 0 ∨ a = 1 ∨ a = 2 := by
    have := h.mem_iff.1 (show a ∈ [a, b, c] by simp)
    simpa using this
  have hb : b = 0 ∨ b = 1 ∨ b = 2 := by
    have := h.mem_iff.1 (show b ∈ [a, b, c] by simp)
    simpa using this
  have hc : c = 0 ∨ c = 1 ∨ c = 2 := by
    have := h.mem_iff.1 (show c ∈ [a, b, c] by simp)
    simpa using this
  rcases ha with rfl | rfl | rfl <;> rcases hb with rfl | rfl | rfl <;>
    rcases hc with rfl | rfl | rfl <;>
    first
      | exact absurd h (by decide)
      | decide

/-- C4 (amended): add_stock(10, t) on a 3-bin pool with the default target
list (some shuffle of [0,1,2]) adds quantities forming a permutation of
[4, 4, 2] — ceil(10/3) = 4 to the first two targeted bins, the remaining 2
to the last — and returns the sorted id list [0, 1, 2]. -/
theorem add_stock_distribution (r : Reactor) (t : ℚ) (svcs : ℕ → ℚ)
    (ids : List ℕ) (b0 b1 b2 : Bin) (hbins : r.bins = [b0, b1, b2])
    (hperm : ids.Perm [0, 1, 2]) (ht : r.last_time_used ≤ t) :
    ∀ res, r.add_stock 10 t ids svcs = some res →
      (List.zipWith (fun x y => Bin.remaining_stock x - Bin.remaining_stock y)
        res.1.bins r.bins).Perm [4, 4, 2] ∧
      res.2 = [0, 1, 2] := by
  intro res h
  rw [Reactor.add_stock, if_pos ht] at h
  have h2 := Option.some.inj h
  have hb2 : res.1.bins =
      (add_stock_loop (ceil_div 10 r.bins.length) 10 t svcs ids 0
        r.bins 0).1 := by
    rw [← h2]
  have hr2 : res.2 = List.insertionSort (fun a b => a ≤ b) ids := by
    rw [← h2]
  have hl : r.bins.length = 3 := by rw [hbins]; rfl
  rw [hb2, hr2, hl, hbins]
  have hc : ceil_div 10 3 = 4 := by decide
  rw [hc]
  rcases perm_012 ids hperm with rfl | rfl | rfl | rfl | rfl | rfl <;>
    refine ⟨?_, by decide⟩ <;>
    · simp only [add_stock_loop, List.getD_cons_zero, List.getD_cons_succ,
        List.set_cons_zero, List.set_cons_succ]
      norm_num [rem_add_stock]
      try decide

/-- Witness for C4's amended theorem at a concrete pool and shuffle. -/
theorem add_stock_distribution_w :
    (Reactor.init 0 3 0 1).bins =
      [Bin.init 0 0 1, Bin.init 0 0 1, Bin.init 0 0 1] ∧
    ([2, 0, 1] : List ℕ).Perm [0, 1, 2] ∧
    (Reactor.init 0 3 0 1).last_time_used ≤ 0 ∧
    ∃ res, (Reactor.init 0 3 0 1).add_stock 10 0 [2, 0, 1] (fun _ => 0) =
        some res ∧
      (List.zipWith (fun x y => Bin.remaining_stock x - Bin.remaining_stock y)
        res.1.bins (Reactor.init 0 3 0 1).bins).Perm [4, 4, 2] ∧
      res.2 = [0, 1, 2] := by
  refine ⟨by decide, by decide, by decide, ?_⟩
  cases hres : (Reactor.init 0 3 0 1).add_stock 10 0 [2, 0, 1] (fun _ => 0) with
  | none => exact absurd hres (by decide)
  | some res =>
    exact ⟨res, rfl, add_stock_distribution (Reactor.init 0 3 0 1) 0
      (fun _ => 0) [2, 0, 1] (Bin.init 0 0 1) (Bin.init 0 0 1) (Bin.init 0 0 1)
      (by decide) (by decide) (by decide) res hres⟩

theorem reserve_stock_none_iff (r : Reactor) (q : ℤ) (t : ℚ) (bid : ℕ)
    (svc : ℚ) :
    r.reserve_stock q t bid svc = none ↔ t < r.last_time_used := by
  rw [Reactor.reserve_stock]
  split_ifs with hpre
  · constructor
    · intro h; exact absurd h (by simp)
    · intro h; exact absurd hpre (not_le.2 h)
  · constructor
    · intro _; exact not_le.1 hpre
    · intro _; rfl

theorem add_stock_none_iff (r : Reactor) (q : ℤ) (t : ℚ) (ids : List ℕ)
    (svcs : ℕ → ℚ) :
    r.add_stock q t ids svcs = none ↔ t < r.last_time_used := by
  rw [Reactor.add_stock]
  split_ifs with hpre
  · constructor
    · intro h; exact absurd h (by simp)
    · intro h; exact absurd hpre (not_le.2 h)
  · constructor
    · intro _; exact not_le.1 hpre
    · intro _; rfl

theorem reshape_none_iff (r : Reactor) (n : ℕ) (t svc : ℚ) :
    r.reshape_num_bins n t svc = none ↔ t < r.last_time_used := by
  rw [Reactor.reshape_num_bins]
  split_ifs with hpre hlen
  · constructor
    · intro h; exact absurd h (by simp)
    · intro h; exact absurd hpre (not_le.2 h)
  · constructor
    · intro h; exact absurd h (by simp)
    · intro h; exact absurd hpre (not_le.2 h)
  · constructor
    · intro _; exact not_le.1 hpre
    · intro _; rfl

theorem reserve_stock_some_ltu (r : Reactor) (q : ℤ) (t : ℚ) (bid : ℕ)
    (svc : ℚ) : ∀ res, r.reserve_stock q t bid svc = some res →
      res.2.last_time_used = t ∧ r.last_time_used ≤ t := by
  intro res h
  rw [Reactor.reserve_stock] at h
  split_ifs at h with hpre
  exact ⟨by rw [← Option.some.inj h], hpre⟩

theorem add_stock_some_ltu (r : Reactor) (q : ℤ) (t : ℚ) (ids : List ℕ)
    (svcs : ℕ → ℚ) : ∀ res, r.add_stock q t ids svcs = some res →
      res.1.last_time_used = t ∧ r.last_time_used ≤ t := by
  intro res h
  rw [Reactor.add_stock] at h
  split_ifs at h with hpre
  exact ⟨by rw [← Option.some.inj h], hpre⟩

theorem reshape_some_ltu (r : Reactor) (n : ℕ) (t svc : ℚ) :
    ∀ res, r.reshape_num_bins n t svc = some res →
      res.1.last_time_used = t ∧ r.last_time_used ≤ t := by
  intro res h
  rw [Reactor.reshape_num_bins] at h
  split_ifs at h with hpre hlen
  · exact ⟨by rw [← Option.some.inj h], hpre⟩
  · exact ⟨by rw [← Option.some.inj h], hpre⟩

theorem ROp.run_ltu (op : ROp) (r r2 : Reactor) (h : op.run r = some r2) :
    r.last_time_used ≤ r2.last_time_used := by
  cases op with
  | reserve q t bid svc =>
    simp only [ROp.run] at h
    cases hr : r.reserve_stock q t bid svc with
    | none => rw [hr] at h; simp at h
    | some res =>
      rw [hr, Option.map_some'] at h
      obtain ⟨he, hle⟩ := reserve_stock_some_ltu r q t bid svc res hr
      rw [← Option.some.inj h, he]
      exact hle
  | add q t ids svcs =>
    simp only [ROp.run] at h
    cases hr : r.add_stock q t ids svcs with
    | none => rw [hr] at h; simp at h
    | some res =>
      rw [hr, Option.map_some'] at h
      obtain ⟨he, hle⟩ := add_stock_some_ltu r q t ids svcs res hr
      rw [← Option.some.inj h, he]
      exact hle
  | reshape n t svc =>
    simp only [ROp.run] at h
    cases hr : r.reshape_num_bins n t svc with
    | none => rw [hr] at h; simp at h
    | some res =>
      rw [hr, Option.map_some'] at h
      obtain ⟨he, hle⟩ := reshape_some_ltu r n t svc res hr
      rw [← Option.some.inj h, he]
      exact hle

theorem runOps_ltu (ops : List ROp) :
    ∀ (r r2 : Reactor), runOps r ops = some r2 →
      r.last_time_used ≤ r2.last_time_used := by
  induction ops with
  | nil =>
    intro r r2 h
    rw [Option.some.inj h]
  | cons op rest ih =>
    intro r r2 h
    simp only [runOps] at h
    cases hstep : op.run r with
    | none => rw [hstep] at h; simp at h
    | some rm =>
      rw [hstep] at h
      exact le_trans (ROp.run_ltu op r rm hstep) (ih rm r2 h)

/-- C8: each timestamped Reactor operation (reserve_stock, add_stock,
reshape_num_bins) fails its watermark precondition check exactly when the
supplied timestamp is smaller than _last_time_used; on success the
watermark becomes the supplied timestamp, which is never below the old
watermark, and over any sequence of successful operations the watermark is
non-decreasing. -/
theorem watermark_discipline :
    (∀ (r : Reactor) (q : ℤ) (t : ℚ) (bid : ℕ) (svc : ℚ),
      (r.reserve_stock q t bid svc = none ↔ t < r.last_time_used) ∧
      ∀ res, r.reserve_stock q t bid svc = some res →
        res.2.last_time_used = t ∧ r.last_time_used ≤ res.2.last_time_used) ∧
    (∀ (r : Reactor) (q : ℤ) (t : ℚ) (ids : List ℕ) (svcs : ℕ → ℚ),
      (r.add_stock q t ids svcs = none ↔ t < r.last_time_used) ∧
      ∀ res, r.add_stock q t ids svcs = some res →
        res.1.last_time_used = t ∧ r.last_time_used ≤ res.1.last_time_used) ∧
    (∀ (r : Reactor) (n : ℕ) (t svc : ℚ),
      (r.reshape_num_bins n t svc = none ↔ t < r.last_time_used) ∧
      ∀ res, r.reshape_num_bins n t svc = some res →
        res.1.last_time_used = t ∧ r.last_time_used ≤ res.1.last_time_used) ∧
    (∀ (ops : List ROp) (r r2 : Reactor), runOps r ops = some r2 →
      r.last_time_used ≤ r2.last_time_used) := by
  refine ⟨?_, ?_, ?_, ?_⟩
  · intro r q t bid svc
    refine ⟨reserve_stock_none_iff r q t bid svc, ?_⟩
    intro res h
    obtain ⟨he, hle⟩ := reserve_stock_some_ltu r q t bid svc res h
    exact ⟨he, by rw [he]; exact hle⟩
  · intro r q t ids svcs
    refine ⟨add_stock_none_iff r q t ids svcs, ?_⟩
    intro res h
    obtain ⟨he, hle⟩ := add_stock_some_ltu r q t ids svcs res h
    exact ⟨he, by rw [he]; exact hle⟩
  · intro r n t svc
    refine ⟨reshape_none_iff r n t svc, ?_⟩
    intro res h
    obtain ⟨he, hle⟩ := reshape_some_ltu r n t svc res h
    exact ⟨he, by rw [he]; exact hle⟩
  · exact runOps_ltu

/-- Witness for C8: a pool with watermark 0 rejects a reservation at
timestamp -1 through the precondition iff, applied concretely. -/
theorem watermark_discipline_w :
    (Reactor.init 0 2 0 1).reserve_stock 1 (-1) 0 0 = none :=
  ((watermark_discipline.1 (Reactor.init 0 2 0 1) 1 (-1) 0 0).1).2
    (by norm_num [Reactor.init])

/-- C9: with a controller that always answers the current bin count, any
number of AdaptTicks (each the driver's assert-then-reshape step) leaves
the pool's bins — and hence its bin count — unchanged. -/
theorem adapt_ticks_same_bins (ticks : List (ℚ × ℚ)) :
    ∀ (r r2 : Reactor), run_adapt_ticks r ticks = some r2 →
      r2.bins = r.bins ∧ r2.num_bins = r.num_bins := by
  induction ticks with
  | nil =>
    intro r r2 h
    rw [← Option.some.inj h]
    exact ⟨rfl, rfl⟩
  | cons tk rest ih =>
    obtain ⟨t, svc⟩ := tk
    intro r r2 h
    simp only [run_adapt_ticks] at h
    cases hstep : adapt_tick_same r t svc with
    | none => rw [hstep] at h; simp at h
    | some rm =>
      rw [hstep] at h
      have hmid : rm.bins = r.bins := by
        rw [adapt_tick_same] at hstep
        split_ifs at hstep with hcond
        · rw [Reactor.reshape_num_bins] at hstep
          split_ifs at hstep with hpre hlen
          · rw [Option.map_some'] at hstep
            rw [← Option.some.inj hstep]
          · exact absurd rfl hlen
          · simp at hstep
      obtain ⟨hb, hn⟩ := ih rm r2 h
      refine ⟨hb.trans hmid, ?_⟩
      simp only [Reactor.num_bins]
      exact congrArg List.length (hb.trans hmid)

/-- Witness for C9: two ticks on a 3-bin pool leave the bins unchanged. -/
theorem adapt_ticks_same_bins_w :
    ∃ r2, run_adapt_ticks (Reactor.init 0 3 0 1) [(1, 0), (2, 5)] = some r2 ∧
      r2.bins = (Reactor.init 0 3 0 1).bins ∧
      r2.num_bins = (Reactor.init 0 3 0 1).num_bins := by
  cases hres : run_adapt_ticks (Reactor.init 0 3 0 1) [(1, 0), (2, 5)] with
  | none => exact absurd hres (by decide)
  | some r2 =>
    exact ⟨r2, rfl, adapt_ticks_same_bins [(1, 0), (2, 5)] _ r2 hres⟩

/-- floor_div_q agrees with math.floor of the rational quotient whenever the
divisor is positive (Recorder.__init__ asserts sample_rate > 0). -/
theorem floor_div_q_eq (t s : ℚ) (hs : 0 < s) : floor_div_q t s = ⌊t / s⌋ := by
  unfold floor_div_q
  have hsnum : 0 < s.num := Rat.num_pos.2 hs
  have htden : (0 : ℤ) < (t.den : ℤ) := by exact_mod_cast t.pos
  have hb : (0 : ℤ) < (t.den : ℤ) * s.num := mul_pos htden hsnum
  rw [Int.fdiv_eq_ediv _ hb.le]
  have hts : t / s = ((t.num * (s.den : ℤ) : ℤ) : ℚ) /
      (((t.den : ℤ) * s.num : ℤ) : ℚ) := by
    have hd : ((t.den : ℚ)) ≠ 0 := by positivity
    have hn : ((s.num : ℚ)) ≠ 0 := by exact_mod_cast hsnum.ne'
    conv_lhs => rw [← Rat.num_div_den t, ← Rat.num_div_den s]
    push_cast
    field_simp
  rw [hts]
  have hnat : (((t.den : ℤ) * s.num : ℤ) : ℚ) =
      ((((t.den : ℤ) * s.num).toNat : ℕ) : ℚ) := by
    norm_cast
    exact (Int.toNat_of_nonneg hb.le).symm
  rw [hnat, Rat.floor_intCast_div_natCast, Int.toNat_of_nonneg hb.le]

theorem resizeZeroQ_length (l : List ℚ) (n : ℕ) (h : l.length ≤ n) :
    (resizeZeroQ l n).length = n := by
  simp only [resizeZeroQ, List.length_append, List.length_replicate]
  omega

theorem resizeZeroZ_length (l : List ℤ) (n : ℕ) (h : l.length ≤ n) :
    (resizeZeroZ l n).length = n := by
  simp only [resizeZeroZ, List.length_append, List.length_replicate]
  omega

/-- When the recorder's capacity-growth step runs (bucket index at or past
the current length) and passes the ceiling assert, but the bucket index also
reaches past the doubled length, record_event ends in the out-of-bounds
outcome. -/
theorem record_event_oob_of (r : Recorder) (qt st : ℚ) (sl bc : ℤ) (ts : ℚ)
    (h1 : ¬ r.script_end < ts) (h2 : 0 ≤ ts) (h3 : 0 < bc)
    (hl1 : r.queue_waiting_numerator.length = r.num_records.length)
    (hl2 : r.service_time_numerator.length = r.num_records.length)
    (hl3 : r.stock_numerator.length = r.num_records.length)
    (hl4 : r.checked_numerator.length = r.num_records.length)
    (hgrow : r.num_records.length ≤ (floor_div_q ts r.sample_rate).toNat)
    (hceil : r.num_records.length * 2 ≤ 32768)
    (hoob : ¬ (floor_div_q ts r.sample_rate).toNat <
      r.num_records.length * 2) :
    r.record_event qt st sl bc ts = .error .outOfBounds := by
  rw [Recorder.record_event, if_neg h1, if_neg (not_not_intro h2),
    if_neg (not_not_intro h3)]
  simp only [Recorder.grow_for]
  rw [if_pos hgrow, if_neg (not_not_intro hceil)]
  simp only [bumpQ, bumpZ]
  rw [resizeZeroQ_length _ _ (by omega), resizeZeroQ_length _ _ (by omega),
    resizeZeroZ_length _ _ (by omega), resizeZeroZ_length _ _ (by omega),
    resizeZeroZ_length _ _ (by omega)]
  simp only [if_neg hoob]

/-- C6: a concrete run showing the out-of-bounds slip.  A fresh recorder
(arrays at capacity 1024, sample width 10, experiment end 40000) receives
record_event at timestamp 30000: the timestamp is inside the experiment,
bins_checked = 1 > 0, and the bucket index floor(30000/10) = 3000 is far
below the 32768 ceiling — the claim's hypotheses all hold — yet the single
capacity doubling only reaches 2048, so the index-3000 accumulation is an
out-of-bounds access (numpy IndexError), not a capacity-ceiling error. -/
theorem record_event_oob :
    (0 : ℚ) ≤ 30000 ∧ (30000 : ℚ) ≤ (Recorder.mk0 10 40000).script_end ∧
    (0 : ℤ) < 1 ∧
    ⌊(30000 : ℚ) / (Recorder.mk0 10 40000).sample_rate⌋ < 32768 ∧
    (Recorder.mk0 10 40000).record_event 0 0 0 1 30000 =
      .error .outOfBounds := by
  have hfd : (floor_div_q 30000 ((Recorder.mk0 10 40000).sample_rate)).toNat
      = 3000 := by
    show (floor_div_q 30000 (10 : ℚ)).toNat = 3000
    rw [floor_div_q_eq _ _ (by norm_num)]
    norm_num
    rfl
  refine ⟨by norm_num, ?_, by norm_num, ?_, ?_⟩
  · show (30000 : ℚ) ≤ 40000
    norm_num
  · show ⌊(30000 : ℚ) / 10⌋ < 32768
    norm_num
  · apply record_event_oob_of
    · show ¬ (40000 : ℚ) < 30000
      norm_num
    · norm_num
    · norm_num
    · simp only [Recorder.mk0, List.length_replicate]
    · simp only [Recorder.mk0, List.length_replicate]
    · simp only [Recorder.mk0, List.length_replicate]
    · simp only [Recorder.mk0, List.length_replicate]
    · rw [hfd]
      simp only [Recorder.mk0, List.length_replicate]
      norm_num
    · simp only [Recorder.mk0, List.length_replicate]
      norm_num
    · rw [hfd]
      simp only [Recorder.mk0, List.length_replicate]
      norm_num

/-- C5: the (spec-modelled) PID controller with kp=1, ki=0, kd=0 and target
utilization 0.1, called with utilization 0.3 at time 10 from a fresh state,
computes error = target − 0.3 = −0.2 and pre-clamp integral 0 + (−0.2) =
−0.2, and since round(−0.2) = 0 the decision is current_count unchanged. -/
theorem pid_scenario (current : ℤ) (i_min i_max : ℚ) (hc : 1 ≤ current) :
    pid_target - 3 / 10 = -(1 / 5) ∧
    (PIDAdaptor.mk0 1 0 0 i_min i_max).accumulated_error +
      (pid_target - 3 / 10) = -(1 / 5) ∧
    ((PIDAdaptor.mk0 1 0 0 i_min i_max).adapt current (3 / 10) 10).1 =
      current := by
  refine ⟨by norm_num [pid_target], ?_, ?_⟩
  · show (0 : ℚ) + (pid_target - 3 / 10) = -(1 / 5)
    norm_num [pid_target]
  · simp only [PIDAdaptor.adapt, PIDAdaptor.mk0, pid_target]
    norm_num
    rw [show round (-(1 / 5) : ℚ) = 0 by norm_num [round_eq]]
    omega

/-- Witness for C5 at current count 5, clamp [-1, 1]. -/
theorem pid_scenario_w :
    (1 : ℤ) ≤ 5 ∧
    (pid_target - 3 / 10 = -(1 / 5) ∧
      (PIDAdaptor.mk0 1 0 0 (-1) 1).accumulated_error +
        (pid_target - 3 / 10) = -(1 / 5) ∧
      ((PIDAdaptor.mk0 1 0 0 (-1) 1).adapt 5 (3 / 10) 10).1 = 5) :=
  ⟨by decide, pid_scenario 5 (-1) 1 (by decide)⟩

end HYB
